import Mathlib

/-!
# Verification of the segmented block-parallel Sieve of Eratosthenes

Shallow embedding of `src/sieve_direct_fun.cpp` (function `sieve_direct_block`
and `main`).  The pipeline-stage helpers (`sieve_seq`, `sieve_to_primes`,
`gen_range`, `range_sieve`, `sieve_to_primes_part`, `input_body`,
`output_body`) live in the headers `sieve.hpp` / `sieve_fun.hpp`, which are
not part of the source tree here; they are modelled from the specification
(sections 4.1-4.5) and carry `Modelled from the spec:` doc comments.

Bitmaps are modelled as functions `Nat → Bool` (resp. `Nat → R.cell` for the
representation-generic pipeline); a bitmap of logical size `m` is only ever
read at indices `< m`, so marking is expressed by the set of marked indices.
`size_t` arithmetic stays inside `Nat` in this program: all quantities are
bounded by `n + block_size`, far below `2^64` for the inputs considered, so
no wrap-around modelling is needed.
-/

/-- From `src/sieve_direct_fun.cpp` line 53:
`size_t sqrt_n = static_cast<size_t>(std::ceil(std::sqrt(n)));`
modelled as the exact ceiling square root on naturals. -/
def csqrt (n : Nat) : Nat :=
  if Nat.sqrt n * Nat.sqrt n = n then Nat.sqrt n else Nat.sqrt n + 1

theorem sqrt_le_csqrt (n : Nat) : Nat.sqrt n ≤ csqrt n := by
  unfold csqrt; split <;> omega

theorem csqrt_le_self (n : Nat) : csqrt n ≤ n := by
  match n with
  | 0 => decide
  | 1 => decide
  | (k + 2) =>
    have h := Nat.sqrt_lt_self (n := k + 2) (by omega)
    unfold csqrt; split <;> omega

theorem csqrt_spec (n : Nat) : n ≤ csqrt n * csqrt n := by
  unfold csqrt; split
  · omega
  · exact Nat.le_of_lt (Nat.lt_succ_sqrt n)

/-- Modelled from the spec (section 4.1): marking pass of one prime `p` on a
bitmap of size `m + 1`: "mark all multiples of `p` from `p*p` to `m` step `p`".
The marked indices are exactly the `j` with `p ∣ j`, `p*p ≤ j ≤ m`. -/
def markMul (f : Nat → Bool) (p m : Nat) : Nat → Bool :=
  fun j => f j || (decide (p ∣ j) && decide (p * p ≤ j) && decide (j ≤ m))

/-- Modelled from the spec (section 4.1): one iteration of the Eratosthenes
loop, "for each `p` from 2 while `p*p ≤ m`, if `p` unmarked, mark ...".
Iterating over every `p` with a guard is equivalent to the `while` loop:
iterations past the loop bound leave the bitmap unchanged. -/
def sieveStep (m : Nat) (f : Nat → Bool) (p : Nat) : Nat → Bool :=
  if 2 ≤ p ∧ p * p ≤ m ∧ f p = false then markMul f p m else f

/-- Bitmap state after the candidate primes `0, 1, ..., P-1` were processed. -/
def sieveState (m P : Nat) : Nat → Bool :=
  (List.range P).foldl (sieveStep m) (fun _ => false)

/-- Modelled from the spec (section 4.1, `sieve_seq` in `sieve.hpp`):
the completed classic-Eratosthenes bitmap for the range `[0, m]`. -/
def sieve_seq (m : Nat) : Nat → Bool := sieveState m (m + 1)

/-- Modelled from the spec (section 4.1, `sieve_to_primes` in `sieve.hpp`):
"extracts the indices that remain unmarked and ≥ 2, in increasing order". -/
def sieve_to_primes (m : Nat) (f : Nat → Bool) : List Nat :=
  (List.range (m + 1)).filter (fun j => 2 ≤ j && !f j)

/-- Spec-side reference predicate: `v` is prime. -/
def primeb (v : Nat) : Bool := decide (Nat.Prime v)

theorem sieveState_succ (m P : Nat) :
    sieveState m (P + 1) = sieveStep m (sieveState m P) P := by
  unfold sieveState
  rw [List.range_succ, List.foldl_append, List.foldl_cons, List.foldl_nil]

theorem sieveState_marked (m : Nat) : ∀ P j, sieveState m P j = true ↔
    ∃ q, q < P ∧ Nat.Prime q ∧ q * q ≤ m ∧ q ∣ j ∧ q * q ≤ j ∧ j ≤ m := by
  intro P
  induction P with
  | zero =>
    intro j
    simp [sieveState]
  | succ P ih =>
    intro j
    rw [sieveState_succ]
    unfold sieveStep
    by_cases hg : 2 ≤ P ∧ P * P ≤ m ∧ sieveState m P P = false
    · have hPprime : Nat.Prime P := by
        rcases hg with ⟨h2, hPm, hunmarked⟩
        by_contra hnp
        have hq := Nat.minFac_prime (show P ≠ 1 by omega)
        have hqd := Nat.minFac_dvd P
        have hqq : P.minFac * P.minFac ≤ P := by
          have h := Nat.minFac_sq_le_self (show 0 < P by omega) hnp
          nlinarith [h]
        have hqle : P.minFac ≤ P := Nat.minFac_le (by omega)
        have hqne : P.minFac ≠ P := by
          intro h
          exact hnp (Nat.prime_def_minFac.mpr ⟨h2, h⟩)
        have hPm' : P ≤ m := le_trans (Nat.le_mul_of_pos_left P (by omega)) hPm
        have : sieveState m P P = true := by
          rw [ih P]
          exact ⟨P.minFac, by omega, hq, le_trans hqq hPm', hqd, hqq, hPm'⟩
        rw [this] at hunmarked
        simp at hunmarked
      rw [if_pos hg]
      unfold markMul
      rw [Bool.or_eq_true, ih j]
      simp only [Bool.and_eq_true, decide_eq_true_eq]
      constructor
      · rintro (⟨q, hqP, hrest⟩ | ⟨⟨hd, hsq⟩, hm⟩)
        · exact ⟨q, by omega, hrest⟩
        · exact ⟨P, by omega, hPprime, hg.2.1, hd, hsq, hm⟩
      · rintro ⟨q, hqP, hprime, hqm, hqd, hqj, hjm⟩
        by_cases hqP' : q < P
        · exact Or.inl ⟨q, hqP', hprime, hqm, hqd, hqj, hjm⟩
        · have : q = P := by omega
          subst this
          exact Or.inr ⟨⟨hqd, hqj⟩, hjm⟩
    · rw [if_neg hg, ih j]
      constructor
      · rintro ⟨q, hqP, hrest⟩
        exact ⟨q, by omega, hrest⟩
      · rintro ⟨q, hqP, hprime, hqm, hqd, hqj, hjm⟩
        by_cases hqP' : q < P
        · exact ⟨q, hqP', hprime, hqm, hqd, hqj, hjm⟩
        · have hqeq : q = P := by omega
          subst hqeq
          exfalso
          apply hg
          refine ⟨hprime.two_le, hqm, ?_⟩
          by_contra hmk
          rw [Bool.not_eq_false, ih q] at hmk
          rcases hmk with ⟨r, hrq, hrprime, _, hrd, hrr, _⟩
          rcases hprime.eq_one_or_self_of_dvd r hrd with h1 | h1
          · rw [h1] at hrprime
            exact Nat.not_prime_one hrprime
          · omega

theorem sieve_seq_false_iff (m j : Nat) (hj : j ≤ m) :
    (2 ≤ j ∧ sieve_seq m j = false) ↔ Nat.Prime j := by
  unfold sieve_seq
  constructor
  · rintro ⟨h2, hunmarked⟩
    by_contra hnp
    have hq := Nat.minFac_prime (show j ≠ 1 by omega)
    have hqd := Nat.minFac_dvd j
    have hqq : j.minFac * j.minFac ≤ j := by
      have h := Nat.minFac_sq_le_self (show 0 < j by omega) hnp
      nlinarith [h]
    have hqle : j.minFac ≤ j := Nat.minFac_le (by omega)
    have : sieveState m (m + 1) j = true := by
      rw [sieveState_marked]
      exact ⟨j.minFac, by omega, hq, by omega, hqd, hqq, hj⟩
    rw [this] at hunmarked
    simp at hunmarked
  · intro hp
    refine ⟨hp.two_le, ?_⟩
    rw [Bool.eq_false_iff]
    intro hmk
    rw [sieveState_marked] at hmk
    rcases hmk with ⟨q, _, hqprime, _, hqd, hqj, _⟩
    rcases hp.eq_one_or_self_of_dvd q hqd with h1 | h1
    · rw [h1] at hqprime
      exact Nat.not_prime_one hqprime
    · subst h1
      have := hp.two_le
      nlinarith [hqj]

theorem sieve_to_primes_sieve_seq (m : Nat) :
    sieve_to_primes m (sieve_seq m) = (List.range (m + 1)).filter primeb := by
  apply List.filter_congr
  intro j hj
  rw [List.mem_range] at hj
  have h := sieve_seq_false_iff m j (by omega)
  rw [Bool.eq_iff_iff]
  simp only [Bool.and_eq_true, decide_eq_true_eq, Bool.not_eq_true', primeb]
  exact h

/-- From `src/sieve_direct_fun.cpp` lines 53-57: the base prime set, the
primes `≤ ceil(sqrt(n))`, computed once before any block pipeline runs. -/
def basePrimes (n : Nat) : List Nat :=
  sieve_to_primes (csqrt n) (sieve_seq (csqrt n))

theorem mem_basePrimes (n p : Nat) :
    p ∈ basePrimes n ↔ Nat.Prime p ∧ p ≤ csqrt n := by
  unfold basePrimes
  rw [sieve_to_primes_sieve_seq, List.mem_filter, List.mem_range]
  unfold primeb
  rw [decide_eq_true_eq]
  constructor
  · rintro ⟨h1, h2⟩; exact ⟨h2, by omega⟩
  · rintro ⟨h1, h2⟩; exact ⟨by omega, h1⟩

theorem lt_div_succ_mul (a b : Nat) (h : 0 < b) : a < (a / b + 1) * b := by
  have hdm := Nat.div_add_mod a b
  have hlt := Nat.mod_lt a h
  have hexp : (a / b + 1) * b = b * (a / b) + b := by ring
  omega

/-- Modelled from the spec (section 4.2, `gen_range` in `sieve_fun.hpp`):
bounds of the block with the given index,
`lo = sqrtN + 1 + blockIndex * blockSize`,
`hi = min (lo + blockSize) (n + 1)`. -/
def gen_range (blockIndex blockSize sqrtN n : Nat) : Nat × Nat :=
  (sqrtN + 1 + blockIndex * blockSize,
   min (sqrtN + 1 + blockIndex * blockSize + blockSize) (n + 1))

/-- Modelled from the spec (section 4.3, `range_sieve` in `sieve_fun.hpp`):
for each base prime `p`, the smallest multiple of `p` at or above `lo` is
`ceil(lo / p) * p = (lo + p - 1) / p * p`, and every `p`-th cell from that
multiple through `hi - 1` is marked.  Cell `k` of the block bitmap stands for
the absolute value `lo + k`. -/
def range_sieve (lo hi : Nat) (base : List Nat) : Nat → Bool :=
  fun k => base.any fun p =>
    decide ((lo + p - 1) / p * p ≤ lo + k) &&
    decide (p ∣ (lo + k - (lo + p - 1) / p * p)) &&
    decide (lo + k < hi)

/-- Modelled from the spec (section 4.4, `sieve_to_primes_part` in
`sieve_fun.hpp`): scan the block bitmap left to right and emit `lo + k` for
every unmarked cell `k`. -/
def sieve_to_primes_part (lo hi : Nat) (bm : Nat → Bool) : List Nat :=
  ((List.range (hi - lo)).filter (fun k => !bm k)).map (fun k => lo + k)

theorem ceilMul_ge (lo p : Nat) (hp : 0 < p) : lo ≤ (lo + p - 1) / p * p := by
  have h := lt_div_succ_mul (lo + p - 1) p hp
  have hexp : ((lo + p - 1) / p + 1) * p = (lo + p - 1) / p * p + p := by ring
  omega

theorem ceilMul_le (lo p v : Nat) (hp : 0 < p) (hd : p ∣ v) (hv : lo ≤ v) :
    (lo + p - 1) / p * p ≤ v := by
  obtain ⟨t, rfl⟩ := hd
  have h1 : (lo + p - 1) / p ≤ t := by
    rw [Nat.div_le_iff_le_mul_add_pred hp]
    have : p * t = t * p := by ring
    omega
  calc (lo + p - 1) / p * p ≤ t * p := Nat.mul_le_mul_right p h1
    _ = p * t := by ring

theorem range_sieve_marked_iff (lo hi k : Nat) (base : List Nat)
    (hk : lo + k < hi) (hpos : ∀ p ∈ base, 0 < p) :
    range_sieve lo hi base k = true ↔ ∃ p ∈ base, p ∣ (lo + k) := by
  unfold range_sieve
  rw [List.any_eq_true]
  simp only [Bool.and_eq_true, decide_eq_true_eq]
  constructor
  · rintro ⟨p, hpmem, ⟨hle, hdvd⟩, _⟩
    have hds : p ∣ (lo + p - 1) / p * p := dvd_mul_left p _
    have hsum : lo + k = (lo + k - (lo + p - 1) / p * p) + (lo + p - 1) / p * p := by
      omega
    exact ⟨p, hpmem, hsum ▸ Nat.dvd_add hdvd hds⟩
  · rintro ⟨p, hpmem, hdvd⟩
    have hp := hpos p hpmem
    have hle := ceilMul_le lo p (lo + k) hp hdvd (by omega)
    exact ⟨p, hpmem, ⟨hle, Nat.dvd_sub' hdvd (dvd_mul_left p _)⟩, hk⟩

/-- Correctness of one block pipeline stage pair: over a range lying strictly
above a complete base-prime set, sieving then extracting yields exactly the
primes of the half-open interval `[lo, hi)`, in order. -/
theorem sieve_to_primes_part_range_sieve (n s lo hi : Nat) (base : List Nat)
    (hs : Nat.sqrt n ≤ s) (hlo : s + 1 ≤ lo) (hhi : hi ≤ n + 1)
    (hbase : ∀ p, p ∈ base ↔ Nat.Prime p ∧ p ≤ s) :
    sieve_to_primes_part lo hi (range_sieve lo hi base) =
      (List.range' lo (hi - lo)).filter primeb := by
  unfold sieve_to_primes_part
  rw [List.range'_eq_map_range, List.filter_map]
  congr 1
  apply List.filter_congr
  intro k hk
  rw [List.mem_range] at hk
  have hkhi : lo + k < hi := by omega
  have hpos : ∀ p ∈ base, 0 < p := by
    intro p hp
    have := ((hbase p).mp hp).1.two_le
    omega
  have hmk := range_sieve_marked_iff lo hi k base hkhi hpos
  rw [Bool.eq_iff_iff]
  simp only [Bool.not_eq_true', Function.comp_apply, primeb, decide_eq_true_eq]
  rw [Bool.eq_false_iff, Ne, hmk]
  have hv2 : 2 ≤ lo + k := by
    by_contra hv
    have hs0 : s = 0 := by omega
    rw [hs0] at hs
    have hn0 : n = 0 := Nat.sqrt_eq_zero.mp (by omega)
    omega
  constructor
  · intro hnone
    by_contra hnp
    have hq := Nat.minFac_prime (show lo + k ≠ 1 by omega)
    have hqd := Nat.minFac_dvd (lo + k)
    have hqq : (lo + k).minFac * (lo + k).minFac ≤ lo + k := by
      have h := Nat.minFac_sq_le_self (show 0 < lo + k by omega) hnp
      nlinarith [h]
    have hqs : (lo + k).minFac ≤ s := by
      have : (lo + k).minFac ≤ Nat.sqrt n := by
        rw [Nat.le_sqrt]
        omega
      omega
    exact hnone ⟨(lo + k).minFac, (hbase _).mpr ⟨hq, hqs⟩, hqd⟩
  · intro hp hmem
    rcases hmem with ⟨p, hpmem, hpd⟩
    rcases (hbase p).mp hpmem with ⟨hpprime, hps⟩
    rcases hp.eq_one_or_self_of_dvd p hpd with h1 | h1
    · rw [h1] at hpprime
      exact Nat.not_prime_one hpprime
    · omega

/-- From `src/sieve_direct_fun.cpp` lines 79-85: the body of one launched
task, for the block whose index `a` the shared counter produced — bounds from
`gen_range`, composite marking by `range_sieve` against the base primes,
extraction by `sieve_to_primes_part`. -/
def blockPrimes (n bs a : Nat) : List Nat :=
  sieve_to_primes_part (gen_range a bs (csqrt n) n).1 (gen_range a bs (csqrt n) n).2
    (range_sieve (gen_range a bs (csqrt n) n).1 (gen_range a bs (csqrt n) n).2
      (basePrimes n))

theorem blockPrimes_eq_filter (n bs a : Nat) :
    blockPrimes n bs a =
      (List.range' (csqrt n + 1 + a * bs)
        (min (csqrt n + 1 + a * bs + bs) (n + 1) - (csqrt n + 1 + a * bs))).filter
        primeb := by
  unfold blockPrimes gen_range
  exact sieve_to_primes_part_range_sieve n (csqrt n) _ _ (basePrimes n)
    (sqrt_le_csqrt n) (by omega) (min_le_right _ _) (mem_basePrimes n)

/-- From `src/sieve_direct_fun.cpp` line 92 (and the matching wait loop at
line 99): the number of launched tasks, `n / block_size + 1`. -/
def numTasks (n bs : Nat) : Nat := n / bs + 1

/-- From `src/sieve_direct_fun.cpp` line 60: the allocation size of
`prime_list`, `n / block_size + 2`. -/
def numSlots (n bs : Nat) : Nat := n / bs + 2

/-- From `src/sieve_direct_fun.cpp` lines 52-104, `sieve_direct_block`:
slot 0 holds the base primes (line 61); the task that drew counter value `a`
from the shared generator stores its block's primes in slot `a + 1`, and the
counter hands out `0, 1, ..., n / block_size` across the launched tasks, so
after the join the slot list is `basePrimes :: map blockPrimes [0, numTasks)`
(schedule independence is proved separately over `runSched` below).
`block_size = 0` makes `n / block_size` at lines 60, 92 and 99 divide by
zero — undefined behavior in C++, modelled as `none`; the source performs no
argument check before those divisions. -/
def sieve_direct_block (n bs : Nat) : Option (List (List Nat)) :=
  if bs = 0 then none
  else some (basePrimes n :: (List.range (numTasks n bs)).map (blockPrimes n bs))

/-- Spec-side reference list: the primes `≤ n` in increasing order. -/
def primesUpTo (n : Nat) : List Nat := (List.range (n + 1)).filter primeb

theorem blocks_flatten (n bs : Nat) : ∀ T,
    ((List.range T).map (blockPrimes n bs)).flatten =
      (List.range' (csqrt n + 1) (min (T * bs) (n - csqrt n))).filter primeb := by
  intro T
  induction T with
  | zero => simp
  | succ T ih =>
    rw [List.range_succ, List.map_append, List.flatten_append, ih]
    simp only [List.map_cons, List.map_nil, List.flatten_cons, List.flatten_nil,
      List.append_nil]
    rw [blockPrimes_eq_filter]
    have hsn : csqrt n ≤ n := csqrt_le_self n
    have hTd : (T + 1) * bs = T * bs + bs := by ring
    by_cases hc : n - csqrt n ≤ T * bs
    · have h1 : min (T * bs) (n - csqrt n) = n - csqrt n := by omega
      have h2 : min ((T + 1) * bs) (n - csqrt n) = n - csqrt n := by omega
      have h3 : min (csqrt n + 1 + T * bs + bs) (n + 1) - (csqrt n + 1 + T * bs) = 0 := by
        omega
      rw [h1, h2, h3]
      simp
    · push_neg at hc
      have h1 : min (T * bs) (n - csqrt n) = T * bs := by omega
      have h2 : min (csqrt n + 1 + T * bs + bs) (n + 1) - (csqrt n + 1 + T * bs)
          = min bs (n - csqrt n - T * bs) := by omega
      rw [h1, h2, ← List.filter_append]
      have happ := List.range'_append (csqrt n + 1) (T * bs)
        (min bs (n - csqrt n - T * bs)) 1
      simp only [one_mul] at happ
      rw [happ]
      have h4 : min bs (n - csqrt n - T * bs) + T * bs = min ((T + 1) * bs) (n - csqrt n) := by
        omega
      rw [h4]

/-- Master correctness lemma: for any positive block size, the logical
concatenation of the slots computed by `sieve_direct_block` is exactly the
ordered list of primes up to `n`. -/
theorem concat_blocks_eq_primesUpTo (n bs : Nat) (hbs : 1 ≤ bs) :
    basePrimes n ++ ((List.range (numTasks n bs)).map (blockPrimes n bs)).flatten
      = primesUpTo n := by
  rw [blocks_flatten n bs (numTasks n bs)]
  have hsn : csqrt n ≤ n := csqrt_le_self n
  have hcover : n < numTasks n bs * bs := by
    unfold numTasks
    exact lt_div_succ_mul n bs (by omega)
  have hmin : min (numTasks n bs * bs) (n - csqrt n) = n - csqrt n := by omega
  rw [hmin]
  unfold basePrimes primesUpTo
  rw [sieve_to_primes_sieve_seq, List.range_eq_range', List.range_eq_range',
    ← List.filter_append]
  have happ := List.range'_append 0 (csqrt n + 1) (n - csqrt n) 1
  simp only [one_mul, Nat.zero_add] at happ
  rw [happ]
  have hlen : n - csqrt n + (csqrt n + 1) = n + 1 := by omega
  rw [hlen]

theorem sieve_direct_block_flatten (n bs : Nat) (hbs : 1 ≤ bs) :
    (sieve_direct_block n bs).map List.flatten = some (primesUpTo n) := by
  unfold sieve_direct_block
  rw [if_neg (show ¬bs = 0 by omega)]
  simp only [Option.map_some']
  rw [List.flatten_cons, concat_blocks_eq_primesUpTo n bs hbs]

theorem sqrt_eval {n r : Nat} (h1 : r * r ≤ n) (h2 : n < (r + 1) * (r + 1)) :
    Nat.sqrt n = r := by
  have ha : r ≤ Nat.sqrt n := Nat.le_sqrt.mpr h1
  have hb : Nat.sqrt n < r + 1 := Nat.sqrt_lt.mpr h2
  omega

theorem csqrt_ten : csqrt 10 = 4 := by
  unfold csqrt
  rw [sqrt_eval (show 3 * 3 ≤ 10 by decide) (by decide)]
  decide

theorem csqrt_hundred : csqrt 100 = 10 := by
  unfold csqrt
  rw [sqrt_eval (show 10 * 10 ≤ 100 by decide) (by decide)]
  decide

theorem primesUpTo_sorted (n : Nat) : (primesUpTo n).Sorted (· < ·) :=
  List.Pairwise.filter primeb (List.sorted_lt_range (n + 1))

theorem mem_primesUpTo (n v : Nat) : v ∈ primesUpTo n ↔ Nat.Prime v ∧ v ≤ n := by
  unfold primesUpTo
  rw [List.mem_filter, List.mem_range]
  unfold primeb
  rw [decide_eq_true_eq]
  constructor
  · rintro ⟨h1, h2⟩; exact ⟨h2, by omega⟩
  · rintro ⟨h1, h2⟩; exact ⟨by omega, h1⟩

/-- C1: for every `n ≥ 2` and every `blockSize ≥ 1`, `sieve_direct_block`
succeeds and the logical concatenation of its slots is a strictly increasing
sequence whose set of values is exactly the set of primes `≤ n`. -/
theorem sieve_direct_block_primes (n bs : Nat) (hn : 2 ≤ n) (hbs : 1 ≤ bs) :
    ∃ slots, sieve_direct_block n bs = some slots ∧
      slots.flatten.Sorted (· < ·) ∧
      ∀ v, v ∈ slots.flatten ↔ (Nat.Prime v ∧ v ≤ n) := by
  refine ⟨basePrimes n :: (List.range (numTasks n bs)).map (blockPrimes n bs),
    ?_, ?_, ?_⟩
  · unfold sieve_direct_block
    rw [if_neg (show ¬bs = 0 by omega)]
  · rw [List.flatten_cons, concat_blocks_eq_primesUpTo n bs hbs]
    exact primesUpTo_sorted n
  · intro v
    rw [List.flatten_cons, concat_blocks_eq_primesUpTo n bs hbs]
    exact mem_primesUpTo n v

theorem sieve_direct_block_primes_witness :
    2 ≤ 30 ∧ 1 ≤ 10 ∧
      ∃ slots, sieve_direct_block 30 10 = some slots ∧
        slots.flatten.Sorted (· < ·) ∧
        ∀ v, v ∈ slots.flatten ↔ (Nat.Prime v ∧ v ≤ 30) :=
  ⟨by decide, by decide, sieve_direct_block_primes 30 10 (by decide) (by decide)⟩

/-- C2: for every `n ≥ 2` and any two positive block sizes, the concatenated
prime sequence returned by `sieve_direct_block` is the same — block
partitioning never changes the result. -/
theorem sieve_direct_block_blocksize_independent (n b1 b2 : Nat)
    (hn : 2 ≤ n) (h1 : 1 ≤ b1) (h2 : 1 ≤ b2) :
    (sieve_direct_block n b1).map List.flatten =
      (sieve_direct_block n b2).map List.flatten := by
  rw [sieve_direct_block_flatten n b1 h1, sieve_direct_block_flatten n b2 h2]

theorem sieve_direct_block_blocksize_independent_witness :
    2 ≤ 100 ∧ 1 ≤ 1 ∧ 1 ≤ 37 ∧
      (sieve_direct_block 100 1).map List.flatten =
        (sieve_direct_block 100 37).map List.flatten :=
  ⟨by decide, by decide, by decide,
    sieve_direct_block_blocksize_independent 100 1 37 (by decide) (by decide) (by decide)⟩

/-- C6: for every positive block size `k`, the runs with `n = 0` and `n = 1`
both produce an empty concatenated prime sequence. -/
theorem sieve_direct_block_trivial_n (k : Nat) (hk : 1 ≤ k) :
    (sieve_direct_block 0 k).map List.flatten = some [] ∧
    (sieve_direct_block 1 k).map List.flatten = some [] := by
  rw [sieve_direct_block_flatten 0 k hk, sieve_direct_block_flatten 1 k hk]
  constructor <;> decide

theorem sieve_direct_block_trivial_n_witness :
    1 ≤ 3 ∧
      ((sieve_direct_block 0 3).map List.flatten = some [] ∧
       (sieve_direct_block 1 3).map List.flatten = some []) :=
  ⟨by decide, sieve_direct_block_trivial_n 3 (by decide)⟩

/-- C7: the bounds of block `i` are `lo = sqrtN + 1 + i * blockSize` and
`hi = min (lo + blockSize) (n + 1)`, and a block with `lo > n` is a no-op:
its pipeline stores an empty prime list instead of failing. -/
theorem gen_range_bounds_empty (n bs a : Nat) :
    gen_range a bs (csqrt n) n =
      (csqrt n + 1 + a * bs, min (csqrt n + 1 + a * bs + bs) (n + 1)) ∧
    (n < csqrt n + 1 + a * bs → blockPrimes n bs a = []) := by
  refine ⟨rfl, ?_⟩
  intro hlt
  rw [blockPrimes_eq_filter]
  have h0 : min (csqrt n + 1 + a * bs + bs) (n + 1) - (csqrt n + 1 + a * bs) = 0 := by
    omega
  rw [h0]
  rfl

theorem gen_range_bounds_empty_witness :
    10 < csqrt 10 + 1 + 5 * 3 ∧ blockPrimes 10 3 5 = [] := by
  have h : 10 < csqrt 10 + 1 + 5 * 3 := by rw [csqrt_ten]; decide
  exact ⟨h, (gen_range_bounds_empty 10 3 5).2 h⟩

/-- C3 (code bug): the source never checks `block_size`; with
`block_size = 0` the expression `n / block_size` at lines 60, 92 and 99
divides by zero (undefined behavior) instead of rejecting the argument, which
the embedding records as `none`. -/
theorem sieve_direct_block_zero_blocksize : sieve_direct_block 7 0 = none := rfl

/-- Modelled from the spec (section 4.6 step 2): the block count the
specification prescribes, `numBlocks = ceil((n - sqrtN) / blockSize)`.
Kept separate from the source-derived `numTasks` / `numSlots` so the two can
be compared. -/
def numBlocks_spec (n bs sqrtN : Nat) : Nat := (n - sqrtN + bs - 1) / bs

/-- C4 counterexample: at `n = 100`, `blockSize = 10` the source allocates
`n / blockSize + 2 = 12` slots and launches `n / blockSize + 1 = 11` tasks,
not `numBlocks + 1 = 10` and `numBlocks = 9` as the claim states. -/
theorem scheduler_counts_claim_false :
    ¬(numSlots 100 10 = numBlocks_spec 100 10 (csqrt 100) + 1 ∧
      numTasks 100 10 = numBlocks_spec 100 10 (csqrt 100)) := by
  rw [csqrt_hundred]
  decide

/-- C4 (amended): the scheduler allocates `n / blockSize + 2` slots and
launches `n / blockSize + 1` pipelines — at least the
`ceil((n - sqrtN) / blockSize)` the spec asks for, so the launched blocks
cover `[sqrtN + 1, n]` — and slot 0 holds the base primes. -/
theorem scheduler_counts_amended (n bs : Nat) (hbs : 1 ≤ bs) :
    numSlots n bs = numTasks n bs + 1 ∧
    (∃ slots, sieve_direct_block n bs = some slots ∧
      slots.length = numSlots n bs ∧ slots.head? = some (basePrimes n)) ∧
    numBlocks_spec n bs (csqrt n) ≤ numTasks n bs := by
  refine ⟨rfl, ⟨basePrimes n :: (List.range (numTasks n bs)).map (blockPrimes n bs),
    ?_, ?_, rfl⟩, ?_⟩
  · unfold sieve_direct_block
    rw [if_neg (show ¬bs = 0 by omega)]
  · simp [numSlots, numTasks, List.length_map, List.length_range]
  · unfold numBlocks_spec numTasks
    rw [Nat.div_le_iff_le_mul_add_pred (show 0 < bs by omega)]
    have hcover := lt_div_succ_mul n bs (show 0 < bs by omega)
    have hexp : (n / bs + 1) * bs = bs * (n / bs + 1) := by ring
    have hexp2 : bs * (n / bs + 1) = bs * (n / bs) + bs := by ring
    omega

theorem scheduler_counts_amended_witness :
    1 ≤ 10 ∧
      (numSlots 100 10 = numTasks 100 10 + 1 ∧
       (∃ slots, sieve_direct_block 100 10 = some slots ∧
         slots.length = numSlots 100 10 ∧ slots.head? = some (basePrimes 100)) ∧
       numBlocks_spec 100 10 (csqrt 100) ≤ numTasks 100 10) :=
  ⟨by decide, scheduler_counts_amended 100 10 (by decide)⟩

/-- Modelled from the spec (section 3, `ResultSlots`): the shared slot vector
as it stands right before the tasks are launched — slot 0 already holds the
base primes (line 61), the `numTasks` task slots are still unwritten (`none`,
the null `shared_ptr` of the source). -/
def initSlots (n bs : Nat) : List (Option (List Nat)) :=
  some (basePrimes n) :: List.replicate (numTasks n bs) none

/-- Modelled from the spec (section 4.5, `output_body` in `sieve_fun.hpp`):
the aggregation step of the task that drew counter value `a` — store that
block's primes into slot `a + 1` (section 4.6 step 4: slot = index + 1). -/
def output_body (st : List (Option (List Nat))) (n bs a : Nat) :
    List (Option (List Nat)) :=
  st.set (a + 1) (some (blockPrimes n bs a))

/-- Modelled from the spec (sections 4.6 and 5, `input_body` at line 67): one
complete scheduled run.  The shared counter `gen` hands the values
`0, 1, ..., numTasks - 1` out across the launched tasks, one each; `vals`
lists those values in the order in which the tasks' slot writes land, so a run
under an arbitrary task interleaving is `runSched n bs vals` for some
permutation `vals` of `range numTasks`.  Sequential in-index-order execution
is `vals = List.range (numTasks n bs)`. -/
def runSched (n bs : Nat) (vals : List Nat) : Option (List (Option (List Nat))) :=
  if bs = 0 then none
  else some (vals.foldl (fun st a => output_body st n bs a) (initSlots n bs))

theorem runSched_range_eval (n bs : Nat) : ∀ T pad,
    (List.range T).foldl (fun st a => output_body st n bs a)
      (some (basePrimes n) :: (List.replicate T none ++ pad))
      = some (basePrimes n) ::
          ((List.range T).map (fun a => some (blockPrimes n bs a)) ++ pad) := by
  intro T
  induction T with
  | zero =>
    intro pad
    simp
  | succ T ih =>
    intro pad
    rw [List.range_succ, List.foldl_append, List.replicate_succ',
      List.append_assoc, List.singleton_append, ih (none :: pad)]
    simp only [List.foldl_cons, List.foldl_nil]
    unfold output_body
    rw [List.set_cons_succ,
      List.set_append_right _ _ (by simp),
      List.map_append]
    simp

theorem runSched_inorder (n bs : Nat) (hbs : 1 ≤ bs) :
    runSched n bs (List.range (numTasks n bs)) =
      some (some (basePrimes n) ::
        (List.range (numTasks n bs)).map (fun a => some (blockPrimes n bs a))) := by
  unfold runSched initSlots
  rw [if_neg (show ¬bs = 0 by omega)]
  have h := runSched_range_eval n bs (numTasks n bs) []
  rw [List.append_nil] at h
  rw [h, List.append_nil]

theorem runSched_perm (n bs : Nat) (vals : List Nat)
    (hv : vals.Perm (List.range (numTasks n bs))) :
    runSched n bs vals = runSched n bs (List.range (numTasks n bs)) := by
  unfold runSched
  split
  · rfl
  · apply congrArg some
    apply hv.foldl_eq'
    intro x hx y hy z
    by_cases hxy : x = y
    · subst hxy; rfl
    · unfold output_body
      exact List.set_comm _ _ _ (by omega)

/-- C9: for a fixed `(n, blockSize)` with `blockSize ≥ 1`, every execution —
i.e. every order `vals` in which the launched tasks' writes can land —
produces the same slot vector, equal to the sequential in-index-order
execution, and that common result is exactly `sieve_direct_block n bs`. -/
theorem sched_deterministic (n bs : Nat) (vals : List Nat) (hbs : 1 ≤ bs)
    (hv : vals.Perm (List.range (numTasks n bs))) :
    runSched n bs vals = runSched n bs (List.range (numTasks n bs)) ∧
    runSched n bs vals = (sieve_direct_block n bs).map (List.map some) := by
  have h1 := runSched_perm n bs vals hv
  refine ⟨h1, ?_⟩
  rw [h1, runSched_inorder n bs hbs]
  unfold sieve_direct_block
  rw [if_neg (show ¬bs = 0 by omega)]
  simp [List.map_map, Function.comp]

theorem sched_deterministic_witness :
    1 ≤ 4 ∧ [2, 0, 1].Perm (List.range (numTasks 10 4)) ∧
      (runSched 10 4 [2, 0, 1] = runSched 10 4 (List.range (numTasks 10 4)) ∧
       runSched 10 4 [2, 0, 1] = (sieve_direct_block 10 4).map (List.map some)) :=
  ⟨by decide, by decide, sched_deterministic 10 4 [2, 0, 1] (by decide) (by decide)⟩

/-- C8: in every run (every write order `vals` of the launched tasks) the
tasks write pairwise distinct slots, none of them slot 0 — so together with
the single scheduler write of slot 0 each slot is written at most once — and
after the barrier join the slot vector has all `numSlots` slots populated. -/
theorem slots_written_once_and_populated (n bs : Nat) (vals : List Nat)
    (hbs : 1 ≤ bs) (hv : vals.Perm (List.range (numTasks n bs))) :
    (vals.map (· + 1)).Nodup ∧ (∀ i ∈ vals, i + 1 ≠ 0) ∧
    ∀ st, runSched n bs vals = some st →
      st.length = numSlots n bs ∧ ∀ o ∈ st, o.isSome := by
  refine ⟨?_, fun i _ => by omega, ?_⟩
  · rw [(hv.map (· + 1)).nodup_iff]
    exact (List.nodup_range _).map (fun a b => by omega)
  · intro st hst
    rw [runSched_perm n bs vals hv, runSched_inorder n bs hbs] at hst
    cases hst
    constructor
    · simp [numSlots, numTasks, List.length_map, List.length_range]
    · intro o ho
      rcases List.mem_cons.mp ho with h | h
      · subst h; rfl
      · rcases List.mem_map.mp h with ⟨a, _, rfl⟩
        rfl

theorem slots_written_once_and_populated_witness :
    1 ≤ 2 ∧ [4, 2, 0, 3, 1].Perm (List.range (numTasks 9 2)) ∧
      ((List.map (· + 1) [4, 2, 0, 3, 1]).Nodup ∧
       (∀ i ∈ [4, 2, 0, 3, 1], i + 1 ≠ 0) ∧
       ∀ st, runSched 9 2 [4, 2, 0, 3, 1] = some st →
         st.length = numSlots 9 2 ∧ ∀ o ∈ st, o.isSome) :=
  ⟨by decide, by decide,
    slots_written_once_and_populated 9 2 [4, 2, 0, 3, 1] (by decide) (by decide)⟩

/-- The template parameter `bool_t` of the source: a bitmap cell encoding,
with the bit the cell stores and the read-back of a cell. -/
structure CellRep where
  cell : Type
  ofBool : Bool → cell
  toBool : cell → Bool
  to_of : ∀ b, toBool (ofBool b) = b

/-- `bool_t = bool`: the packed-boolean encoding (`std::vector<bool>`). -/
def boolCell : CellRep :=
  { cell := Bool, ofBool := id, toBool := id, to_of := fun _ => rfl }

/-- `bool_t = char`: the byte-per-cell encoding; a cell stores `1` or `0` and
reads back as marked iff nonzero. -/
def charCell : CellRep :=
  { cell := Nat
    ofBool := fun b => if b then 1 else 0
    toBool := fun c => decide (c ≠ 0)
    to_of := by intro b; cases b <;> decide }

/-- Modelled from the spec (section 4.1), generic in the cell encoding:
marking writes the `true` cell, all other cells keep their value. -/
def markMulR (R : CellRep) (f : Nat → R.cell) (p m : Nat) : Nat → R.cell :=
  fun j =>
    if decide (p ∣ j) && decide (p * p ≤ j) && decide (j ≤ m) then R.ofBool true
    else f j

/-- Modelled from the spec (section 4.1), generic in the cell encoding. -/
def sieveStepR (R : CellRep) (m : Nat) (f : Nat → R.cell) (p : Nat) : Nat → R.cell :=
  if 2 ≤ p ∧ p * p ≤ m ∧ R.toBool (f p) = false then markMulR R f p m else f

def sieveStateR (R : CellRep) (m P : Nat) : Nat → R.cell :=
  (List.range P).foldl (sieveStepR R m) (fun _ => R.ofBool false)

/-- Modelled from the spec (section 4.1), generic in the cell encoding. -/
def sieve_seqR (R : CellRep) (m : Nat) : Nat → R.cell := sieveStateR R m (m + 1)

/-- Modelled from the spec (section 4.1), generic in the cell encoding. -/
def sieve_to_primesR (R : CellRep) (m : Nat) (f : Nat → R.cell) : List Nat :=
  (List.range (m + 1)).filter (fun j => 2 ≤ j && !R.toBool (f j))

/-- Modelled from the spec (section 4.3), generic in the cell encoding: the
block bitmap starts as all-`false` cells and marking writes `true` cells. -/
def range_sieveR (R : CellRep) (lo hi : Nat) (base : List Nat) : Nat → R.cell :=
  fun k => R.ofBool (base.any fun p =>
    decide ((lo + p - 1) / p * p ≤ lo + k) &&
    decide (p ∣ (lo + k - (lo + p - 1) / p * p)) &&
    decide (lo + k < hi))

/-- Modelled from the spec (section 4.4), generic in the cell encoding. -/
def sieve_to_primes_partR (R : CellRep) (lo hi : Nat) (bm : Nat → R.cell) :
    List Nat :=
  ((List.range (hi - lo)).filter (fun k => !R.toBool (bm k))).map (fun k => lo + k)

def basePrimesR (R : CellRep) (n : Nat) : List Nat :=
  sieve_to_primesR R (csqrt n) (sieve_seqR R (csqrt n))

def blockPrimesR (R : CellRep) (n bs a : Nat) : List Nat :=
  sieve_to_primes_partR R (gen_range a bs (csqrt n) n).1 (gen_range a bs (csqrt n) n).2
    (range_sieveR R (gen_range a bs (csqrt n) n).1 (gen_range a bs (csqrt n) n).2
      (basePrimesR R n))

/-- The source's `sieve_direct_block<bool_t>`, generic in the cell encoding;
`sieve_direct_block` above is its cell-erased bitmap semantics. -/
def sieve_direct_blockR (R : CellRep) (n bs : Nat) : Option (List (List Nat)) :=
  if bs = 0 then none
  else some (basePrimesR R n :: (List.range (numTasks n bs)).map (blockPrimesR R n bs))

theorem toBool_sieveStepR (R : CellRep) (m : Nat) (f : Nat → R.cell)
    (g : Nat → Bool) (h : ∀ j, R.toBool (f j) = g j) (p j : Nat) :
    R.toBool (sieveStepR R m f p j) = sieveStep m g p j := by
  unfold sieveStepR sieveStep
  by_cases hc : 2 ≤ p ∧ p * p ≤ m ∧ g p = false
  · rw [if_pos ⟨hc.1, hc.2.1, by rw [h p]; exact hc.2.2⟩, if_pos hc]
    unfold markMulR markMul
    by_cases hmk : (decide (p ∣ j) && decide (p * p ≤ j) && decide (j ≤ m)) = true
    · rw [if_pos hmk, hmk, R.to_of, Bool.or_true]
    · have hmk' : (decide (p ∣ j) && decide (p * p ≤ j) && decide (j ≤ m)) = false :=
        Bool.eq_false_iff.mpr hmk
      rw [if_neg hmk, hmk', h j, Bool.or_false]
  · rw [if_neg (fun hcc => hc ⟨hcc.1, hcc.2.1, by rw [← h p]; exact hcc.2.2⟩),
      if_neg hc]
    exact h j

theorem sieveStateR_succ (R : CellRep) (m P : Nat) :
    sieveStateR R m (P + 1) = sieveStepR R m (sieveStateR R m P) P := by
  unfold sieveStateR
  rw [List.range_succ, List.foldl_append, List.foldl_cons, List.foldl_nil]

theorem toBool_sieve_seqR (R : CellRep) (m : Nat) :
    ∀ j, R.toBool (sieve_seqR R m j) = sieve_seq m j := by
  suffices h : ∀ P j, R.toBool (sieveStateR R m P j) = sieveState m P j by
    exact fun j => h (m + 1) j
  intro P
  induction P with
  | zero =>
    intro j
    simp only [sieveStateR, sieveState, List.range_zero, List.foldl_nil]
    exact R.to_of false
  | succ P ih =>
    intro j
    rw [sieveStateR_succ, sieveState_succ]
    exact toBool_sieveStepR R m _ _ ih P j

theorem basePrimesR_eq (R : CellRep) (n : Nat) : basePrimesR R n = basePrimes n := by
  unfold basePrimesR basePrimes sieve_to_primesR sieve_to_primes
  apply List.filter_congr
  intro j _
  rw [toBool_sieve_seqR R (csqrt n) j]

theorem blockPrimesR_eq (R : CellRep) (n bs a : Nat) :
    blockPrimesR R n bs a = blockPrimes n bs a := by
  unfold blockPrimesR blockPrimes sieve_to_primes_partR sieve_to_primes_part
  rw [basePrimesR_eq R n]
  apply congrArg
  apply List.filter_congr
  intro k _
  unfold range_sieveR range_sieve
  rw [R.to_of]

theorem sieve_direct_blockR_eq (R : CellRep) (n bs : Nat) :
    sieve_direct_blockR R n bs = sieve_direct_block n bs := by
  unfold sieve_direct_blockR sieve_direct_block
  split
  · rfl
  · rw [basePrimesR_eq R n]
    apply congrArg some
    apply congrArg
    apply List.map_congr_left
    intro a _
    exact blockPrimesR_eq R n bs a

/-- C5: the packed-boolean and the byte-per-cell instantiations of
`sieve_direct_block` return identical slot vectors for every input —
the cell representation never changes the computed prime lists. -/
theorem sieve_direct_block_cell_rep (n bs : Nat) :
    sieve_direct_blockR boolCell n bs = sieve_direct_blockR charCell n bs := by
  rw [sieve_direct_blockR_eq boolCell n bs, sieve_direct_blockR_eq charCell n bs]

/-- From `src/sieve_direct_fun.cpp` lines 106-115: argument handling of
`main`. `args` is the command-line argument list after the program name,
already as numbers (`std::stol`); defaults are `number = 100'000'000` and
`block_size = 1'000`. -/
def main_number (args : List Nat) : Nat :=
  match args with
  | a :: _ => a
  | [] => 100000000

/-- From `src/sieve_direct_fun.cpp` lines 108 and 113-115: the second
command-line argument, defaulting to 1000. -/
def main_block_size (args : List Nat) : Nat :=
  match args with
  | _ :: b :: _ => b
  | _ => 1000

/-- From `src/sieve_direct_fun.cpp` lines 117-118: the two timed sieve calls;
both instantiations receive `block_size * 1024`, never `block_size` itself. -/
def main_run (args : List Nat) :
    Option (List (List Nat)) × Option (List (List Nat)) :=
  (sieve_direct_blockR boolCell (main_number args) (main_block_size args * 1024),
   sieve_direct_blockR charCell (main_number args) (main_block_size args * 1024))

/-- C10: `main` scales the block size by 1024 before calling the sieve: both
sieve calls receive `1024 *` the second command-line argument, and the
default (no arguments) yields an effective block size of 1024000. -/
theorem main_scales_block_size (args : List Nat) :
    main_run args =
      (sieve_direct_blockR boolCell (main_number args) (1024 * main_block_size args),
       sieve_direct_blockR charCell (main_number args) (1024 * main_block_size args)) ∧
    main_block_size [] * 1024 = 1024000 := by
  constructor
  · unfold main_run
    rw [Nat.mul_comm (main_block_size args) 1024]
  · decide
